import Mathlib

/-!
Verification of the highlight-rendering core of the Context Weaver
document-annotation application.

The embedding models, from the source component holding the document
viewer:

* the annotation row shape (fields used by the renderer);
* `renderDocumentWithHighlights`, which sorts a document's stored
  annotation rows by `position_start` (JavaScript `Array.prototype.sort`
  with comparator `(a, b) => a.position_start - b.position_start`, a
  stable sort) and walks them with a `lastIndex` cursor, emitting plain
  and highlighted segments via `String.prototype.substring`;
* `handleTextSelection`, which turns a user selection inside a rendered
  document container into `{ text, start, end }` document offsets, where
  `start` is the number of characters of the container's text stream that
  precede the selection start (the `preCaretRange.toString().length`
  computation), returning nothing when the selection is empty or
  whitespace-only after trimming;
* `getHighlightColor`, the lookup `colors[color] || colors.yellow` on a
  five-entry object literal — including the prototype chain, which makes
  names of inherited `Object.prototype` members (such as `constructor`
  or `toString`) hit truthy non-string values instead of the yellow
  fallback — and the `segment.annotation?.color || 'yellow'` call site.

Document content is a `List Char`; offsets stored in annotation rows are
`Int` (database integers, possibly out of range). JavaScript `substring`
semantics — clamp both indices into `[0, length]`, swap when start
exceeds end — are captured by `jsSubstring`. The early return of the raw
content string for an empty annotation list is modelled as a single plain
segment, which is how the view presents it.
-/

/-- Clamp of a JavaScript string index into `[0, len]`: negative values
become `0` (`Int.toNat`), values beyond the length become `len`. -/
def clampIdx (len : Nat) (i : Int) : Nat := min i.toNat len

/-- Effective lower slice bound of `String.prototype.substring a b`:
both indices are clamped, then the smaller is used as the start. -/
def clampLo (len : Nat) (a b : Int) : Nat := min (clampIdx len a) (clampIdx len b)

/-- JavaScript `content.substring(a, b)`: clamp both indices to
`[0, content.length]`, swap them when the first exceeds the second, and
slice the half-open interval. Never throws. -/
def jsSubstring (content : List Char) (a b : Int) : List Char :=
  (content.drop (min (clampIdx content.length a) (clampIdx content.length b))).take
    (max (clampIdx content.length a) (clampIdx content.length b) -
      min (clampIdx content.length a) (clampIdx content.length b))

/-- Annotation row as stored by the backing table, restricted to the
fields the viewer logic reads. `annot_note` models the row's free-text
note column (named `content` in the table) and `highlighted_text` the
captured selection text; positions are database integers. -/
structure Ann where
  id : Nat
  annot_note : String
  highlighted_text : String
  position_start : Int
  position_end : Int
  color : String
deriving DecidableEq

/-- Display segment produced by the renderer: a slice of the document
text, a highlighted flag, and (for highlighted segments) the originating
annotation row, matching `{ text, highlighted, annotation? }`. -/
structure Segment where
  text : List Char
  highlighted : Bool
  annot : Option Ann
deriving DecidableEq

/-- Comparator order induced by `(a, b) => a.position_start - b.position_start`. -/
abbrev annLe (a b : Ann) : Prop := a.position_start ≤ b.position_start

instance : IsTotal Ann annLe := ⟨fun a b => Int.le_total a.position_start b.position_start⟩

instance : IsTrans Ann annLe := ⟨fun _ _ _ h1 h2 => le_trans h1 h2⟩

/-- The sort performed by `docAnnotations.sort((a, b) => a.position_start -
b.position_start)`. JavaScript `Array.prototype.sort` is stable, and the
stable sort by a given key order is unique, so stable insertion sort is an
exact model of it. -/
def sortAnns (anns : List Ann) : List Ann := List.insertionSort annLe anns

/-- Loop body of `renderDocumentWithHighlights`: walk the sorted
annotations with the `lastIndex` cursor, emitting an optional plain
segment before each annotation, then its highlighted segment, then after
the loop the trailing plain segment when the cursor has not reached the
end of the content. -/
def renderLoop (content : List Char) : List Ann → Int → List Segment
  | [], lastIndex =>
    if lastIndex < (content.length : Int) then
      [{ text := jsSubstring content lastIndex content.length,
         highlighted := false, annot := none }]
    else []
  | a :: rest, lastIndex =>
    (if a.position_start > lastIndex then
      [{ text := jsSubstring content lastIndex a.position_start,
         highlighted := false, annot := none }]
     else [])
    ++ { text := jsSubstring content a.position_start a.position_end,
         highlighted := true, annot := some a }
       :: renderLoop content rest a.position_end

/-- The renderer: an empty annotation list short-circuits to the whole
content (one plain segment in the view); otherwise the annotations are
sorted by `position_start` and walked from cursor `0`. -/
def renderDocumentWithHighlights (content : List Char) (anns : List Ann) : List Segment :=
  if anns.isEmpty then [{ text := content, highlighted := false, annot := none }]
  else renderLoop content (sortAnns anns) 0

/-- Concatenation of the `text` fields of a segment list, the full text
stream the rendered container displays. -/
def segmentsText (segs : List Segment) : List Char := (segs.map Segment.text).flatten

/-- JavaScript value produced by the color lookup: either a hex color
string from the table (or the yellow fallback), or a truthy member
inherited from `Object.prototype` that the property access on the object
literal finds via the prototype chain. -/
inductive JsVal where
  | str : String → JsVal
  | inherited : String → JsVal
deriving DecidableEq

/-- Property names an object literal inherits from `Object.prototype`:
`colors[name]` for these yields a truthy non-string value (a function or
object) rather than `undefined`. -/
def objectProtoKeys : List String :=
  ["constructor", "hasOwnProperty", "isPrototypeOf", "propertyIsEnumerable",
   "toLocaleString", "toString", "valueOf", "__proto__", "__defineGetter__",
   "__defineSetter__", "__lookupGetter__", "__lookupSetter__"]

/-- The lookup `colors[color] || colors.yellow` on the five-entry object
literal: an own key yields its hex string; a name of an inherited
`Object.prototype` member yields that truthy inherited value, which the
`||` keeps; any other name yields `undefined` (falsy), replaced by the
yellow value. -/
def getHighlightColor (color : String) : JsVal :=
  if color = "yellow" then .str "#fef08a"
  else if color = "green" then .str "#bbf7d0"
  else if color = "blue" then .str "#bfdbfe"
  else if color = "pink" then .str "#fbcfe8"
  else if color = "purple" then .str "#e9d5ff"
  else if color ∈ objectProtoKeys then .inherited color
  else .str "#fef08a"

/-- The call site `getHighlightColor(segment.annotation?.color || 'yellow')`:
a missing color (absent annotation reference) or an empty string is falsy
in JavaScript and replaced by `'yellow'` before the table lookup. -/
def resolveColor (c : Option String) : JsVal :=
  getHighlightColor (match c with
    | none => "yellow"
    | some s => if s = "" then "yellow" else s)

/-- The exact character class stripped by JavaScript
`String.prototype.trim` (ECMAScript WhiteSpace plus LineTerminator):
TAB U+0009, LF U+000A, VT U+000B, FF U+000C, CR U+000D, SPACE U+0020,
NBSP U+00A0, OGHAM SPACE U+1680, the U+2000 to U+200A space separators,
LS U+2028, PS U+2029, NNBSP U+202F, MMSP U+205F, IDEOGRAPHIC SPACE
U+3000 and ZWNBSP U+FEFF. -/
def jsWhitespace (c : Char) : Bool :=
  c.toNat == 0x09 || c.toNat == 0x0A || c.toNat == 0x0B || c.toNat == 0x0C ||
  c.toNat == 0x0D || c.toNat == 0x20 || c.toNat == 0xA0 || c.toNat == 0x1680 ||
  (decide (0x2000 ≤ c.toNat) && decide (c.toNat ≤ 0x200A)) ||
  c.toNat == 0x2028 || c.toNat == 0x2029 || c.toNat == 0x202F ||
  c.toNat == 0x205F || c.toNat == 0x3000 || c.toNat == 0xFEFF

/-- JavaScript `String.prototype.trim`: drop leading and trailing
characters of the ECMAScript whitespace class `jsWhitespace`. -/
def jsTrim (s : List Char) : List Char :=
  ((s.dropWhile jsWhitespace).reverse.dropWhile jsWhitespace).reverse

/-- Result shape of a captured selection, `{ text, start, end }` in
document coordinates (`endPos` models the source's `end` field). -/
structure SelRange where
  text : List Char
  start : Nat
  endPos : Nat
deriving DecidableEq

/-- Model of `handleTextSelection` over the text stream of one document container:
the selection is identified by its character offsets in the container's
concatenated text (document order), its `toString()` is the corresponding
slice, the whitespace-only guard returns early with no result, `start` is
the length of the text preceding the selection start, and
`end = start + text.length`. -/
def handleTextSelection (containerText : List Char) (selStart selEnd : Nat) :
    Option SelRange :=
  let text := (containerText.drop selStart).take (selEnd - selStart)
  if jsTrim text = [] then none
  else some { text := text, start := selStart, endPos := selStart + text.length }

/-- Variant of `renderLoop` that also records, for each emitted segment,
the content position its text is sliced from (the effective lower bound
used by `substring`). Used to state the segment-order property. -/
def renderLoopPos (content : List Char) : List Ann → Int → List (Nat × Segment)
  | [], lastIndex =>
    if lastIndex < (content.length : Int) then
      [(clampIdx content.length lastIndex,
        { text := jsSubstring content lastIndex content.length,
          highlighted := false, annot := none })]
    else []
  | a :: rest, lastIndex =>
    (if a.position_start > lastIndex then
      [(clampIdx content.length lastIndex,
        { text := jsSubstring content lastIndex a.position_start,
          highlighted := false, annot := none })]
     else [])
    ++ (clampLo content.length a.position_start a.position_end,
        { text := jsSubstring content a.position_start a.position_end,
          highlighted := true, annot := some a })
       :: renderLoopPos content rest a.position_end

/-- Position-annotated rendering, projecting to `renderDocumentWithHighlights`. -/
def renderWithPos (content : List Char) (anns : List Ann) : List (Nat × Segment) :=
  if anns.isEmpty then [(0, { text := content, highlighted := false, annot := none })]
  else renderLoopPos content (sortAnns anns) 0

/-- Twenty-character test document from the spec's overlap and clamp
scenarios. -/
def wContent : List Char := "abcdefghijklmnopqrst".toList

/-- First overlap-scenario annotation, range [0, 10). -/
def annA : Ann :=
  { id := 1, annot_note := "", highlighted_text := "", position_start := 0,
    position_end := 10, color := "yellow" }

/-- Second overlap-scenario annotation, range [5, 15), overlapping `annA`. -/
def annB : Ann :=
  { id := 2, annot_note := "", highlighted_text := "", position_start := 5,
    position_end := 15, color := "green" }

/-- Out-of-range annotation: `position_end = 10000` on a 20-character
document. -/
def annBig : Ann :=
  { id := 3, annot_note := "", highlighted_text := "", position_start := 0,
    position_end := 10000, color := "blue" }

/-- Valid disjoint annotation, range [2, 4). -/
def annC : Ann :=
  { id := 4, annot_note := "", highlighted_text := "", position_start := 2,
    position_end := 4, color := "pink" }

/-- Valid disjoint annotation, range [6, 9). -/
def annD : Ann :=
  { id := 5, annot_note := "", highlighted_text := "", position_start := 6,
    position_end := 9, color := "purple" }

/-- Annotation with range [2, 8), enclosing `annF`'s empty range. -/
def annE : Ann :=
  { id := 6, annot_note := "", highlighted_text := "", position_start := 2,
    position_end := 8, color := "yellow" }

/-- Zero-length annotation at position 3, nested inside `annE`. -/
def annF : Ann :=
  { id := 7, annot_note := "", highlighted_text := "", position_start := 3,
    position_end := 3, color := "pink" }

/-- Single valid annotation [1, 2) for the selection round-trip witness. -/
def annG : Ann :=
  { id := 8, annot_note := "", highlighted_text := "", position_start := 1,
    position_end := 2, color := "yellow" }

/-- Sanity check reproducing the spec's worked example: "The quick brown
fox" with a green annotation on [4, 9) renders as plain "The ",
highlighted "quick", plain " brown fox". -/
theorem render_spec_example :
    renderDocumentWithHighlights "The quick brown fox".toList
      [{ id := 1, annot_note := "", highlighted_text := "quick",
         position_start := 4, position_end := 9, color := "green" }] =
    [{ text := "The ".toList, highlighted := false, annot := none },
     { text := "quick".toList, highlighted := true,
       annot := some { id := 1, annot_note := "", highlighted_text := "quick",
                       position_start := 4, position_end := 9, color := "green" } },
     { text := " brown fox".toList, highlighted := false, annot := none }] := by
  decide

/-! ### Helper lemmas -/

theorem segmentsText_nil : segmentsText [] = [] := rfl

theorem segmentsText_cons (s : Segment) (l : List Segment) :
    segmentsText (s :: l) = s.text ++ segmentsText l := by
  simp [segmentsText]

theorem segmentsText_append (l₁ l₂ : List Segment) :
    segmentsText (l₁ ++ l₂) = segmentsText l₁ ++ segmentsText l₂ := by
  simp [segmentsText]

theorem take_take_len {α : Type _} (l : List α) (n : Nat) :
    l.take ((l.take n).length) = l.take n := by
  induction l generalizing n with
  | nil => simp
  | cons a l ih =>
    cases n with
    | zero => simp
    | succ n => simp [List.take_succ_cons, ih]

theorem drop_slice_append {α : Type _} (l : List α) {i j : Nat} (h : i ≤ j) :
    (l.drop i).take (j - i) ++ l.drop j = l.drop i := by
  conv_rhs => rw [← List.take_append_drop (j - i) (l.drop i)]
  rw [List.drop_drop, Nat.add_sub_cancel' h]

theorem jsSubstring_of_le (content : List Char) {a b : Int}
    (h0 : 0 ≤ a) (hab : a ≤ b) (hb : b ≤ (content.length : Int)) :
    jsSubstring content a b = (content.drop a.toNat).take (b.toNat - a.toNat) := by
  have ha' : a.toNat ≤ content.length := by omega
  have hb' : b.toNat ≤ content.length := by omega
  have hab' : a.toNat ≤ b.toNat := by omega
  unfold jsSubstring clampIdx
  rw [min_eq_left ha', min_eq_left hb', min_eq_left hab', max_eq_right hab']

theorem jsSubstring_length_le (content : List Char) (a b : Int) :
    (jsSubstring content a b).length ≤ content.length := by
  unfold jsSubstring clampIdx
  simp only [List.length_take, List.length_drop]
  omega

theorem sortAnns_perm (anns : List Ann) : (sortAnns anns).Perm anns :=
  List.perm_insertionSort annLe anns

theorem sortAnns_sorted (anns : List Ann) : (sortAnns anns).Pairwise annLe :=
  List.sorted_insertionSort annLe anns

theorem mem_sortAnns {a : Ann} {anns : List Ann} : a ∈ sortAnns anns ↔ a ∈ anns :=
  (sortAnns_perm anns).mem_iff

theorem filter_orderedInsert (k : Int) (x : Ann) (l : List Ann) :
    (List.orderedInsert annLe x l).filter (fun a => decide (a.position_start = k)) =
      if x.position_start = k then
        x :: l.filter (fun a => decide (a.position_start = k))
      else l.filter (fun a => decide (a.position_start = k)) := by
  induction l with
  | nil =>
    simp only [List.orderedInsert_nil, List.filter_cons, List.filter_nil]
    split <;> simp_all
  | cons b l ih =>
    by_cases hxb : annLe x b
    · rw [List.orderedInsert_of_le _ _ hxb]
      simp only [List.filter_cons]
      split <;> simp_all
    · have hlt : b.position_start < x.position_start := by
        simpa [annLe] using hxb
      simp only [List.orderedInsert, if_neg hxb, List.filter_cons]
      by_cases hxk : x.position_start = k
      · have hbk : ¬ b.position_start = k := by omega
        simp [hbk, ih, hxk]
      · rcases Decidable.em (b.position_start = k) with hbk | hbk <;>
          simp [List.filter_cons, ih, hxk, hbk]

theorem sortAnns_filter_eq (k : Int) (anns : List Ann) :
    (sortAnns anns).filter (fun a => decide (a.position_start = k)) =
      anns.filter (fun a => decide (a.position_start = k)) := by
  induction anns with
  | nil => rfl
  | cons x anns ih =>
    show (List.orderedInsert annLe x (sortAnns anns)).filter _ = _
    rw [filter_orderedInsert, ih, List.filter_cons]
    split <;> simp_all

/-- Core coverage lemma: walking a chain of in-bounds, pairwise-disjoint
annotations from cursor `i` emits exactly the text from position `i` to
the end of the content. -/
theorem renderLoop_concat (content : List Char) (l : List Ann) :
    ∀ i : Nat, i ≤ content.length →
      (∀ a ∈ l, 0 ≤ a.position_start ∧ a.position_start ≤ a.position_end ∧
        a.position_end ≤ (content.length : Int)) →
      List.Chain' (fun a b => a.position_end ≤ b.position_start) l →
      (∀ a ∈ l.head?, (i : Int) ≤ a.position_start) →
      segmentsText (renderLoop content l (i : Int)) = content.drop i := by
  induction l with
  | nil =>
    intro i hi _ _ _
    unfold renderLoop
    split
    · rw [segmentsText_cons, segmentsText_nil, List.append_nil,
        jsSubstring_of_le content (by omega) (by exact_mod_cast hi) (le_refl _)]
      simp only [Int.toNat_natCast]
      exact List.take_of_length_le (by simp)
    · rename_i hge
      have hieq : i = content.length := by omega
      rw [segmentsText_nil, hieq, List.drop_length]
  | cons a l ih =>
    intro i hi hmem hchain hhead
    obtain ⟨h0a, hse, hel⟩ := hmem a (by simp)
    have hia : (i : Int) ≤ a.position_start := hhead a rfl
    have hsi : a.position_start = (a.position_start.toNat : Int) := by omega
    have hei : a.position_end = (a.position_end.toNat : Int) := by omega
    have hrec : segmentsText (renderLoop content l ((a.position_end.toNat : Nat) : Int)) =
        content.drop a.position_end.toNat := by
      apply ih a.position_end.toNat (by omega) (fun b hb => hmem b (by simp [hb])) hchain.tail
      intro b hb
      cases l with
      | nil => simp at hb
      | cons c l' =>
        have hbc : c = b := by simpa using hb
        subst hbc
        have hac := (List.chain'_cons.mp hchain).1
        omega
    unfold renderLoop
    by_cases hcase : a.position_start > (i : Int)
    · rw [if_pos hcase, segmentsText_append, segmentsText_cons, segmentsText_nil,
        List.append_nil, segmentsText_cons,
        jsSubstring_of_le content (by omega) (le_of_lt hcase) (by omega),
        jsSubstring_of_le content h0a hse hel]
      conv_lhs => rw [hei, hrec]
      simp only [Int.toNat_natCast]
      rw [drop_slice_append content (by omega : a.position_start.toNat ≤ a.position_end.toNat),
        drop_slice_append content (by omega : i ≤ a.position_start.toNat)]
    · rw [if_neg hcase, List.nil_append, segmentsText_cons,
        jsSubstring_of_le content h0a hse hel]
      conv_lhs => rw [hei, hrec]
      simp only [Int.toNat_natCast]
      rw [drop_slice_append content (by omega : a.position_start.toNat ≤ a.position_end.toNat)]
      have : a.position_start.toNat = i := by omega
      rw [this]

/-- Coverage of the renderer for a valid, pairwise-disjoint annotation
set: the emitted texts concatenate back to the whole content. -/
theorem render_concat (content : List Char) (anns : List Ann)
    (hvalid : ∀ a ∈ anns, 0 ≤ a.position_start ∧ a.position_start ≤ a.position_end ∧
      a.position_end ≤ (content.length : Int))
    (hchain : List.Chain' (fun a b => a.position_end ≤ b.position_start) (sortAnns anns)) :
    segmentsText (renderDocumentWithHighlights content anns) = content := by
  unfold renderDocumentWithHighlights
  split
  · simp [segmentsText]
  · have h0 : segmentsText (renderLoop content (sortAnns anns) ((0 : Nat) : Int)) =
        content.drop 0 := by
      apply renderLoop_concat content (sortAnns anns) 0 (Nat.zero_le _)
        (fun a ha => hvalid a (mem_sortAnns.mp ha)) hchain
      intro a ha
      have hmem : a ∈ sortAnns anns := List.mem_of_mem_head? ha
      have := (hvalid a (mem_sortAnns.mp hmem)).1
      omega
    simpa using h0

/-! ### Claim theorems -/

/-- Claim C1, checked against the code: at the spec's overlap scenario —
annotations [0, 10) and [5, 15) over the 20-character document — the
renderer re-slices the second annotation from its raw `position_start`
instead of clamping to the cursor, so the concatenated output is
`content[0:10] ++ content[5:15] ++ content[15:20]`: characters 5–10
(`"fghij"`) appear twice and the output is not the document text. -/
theorem claim_c1_overlap_duplication :
    segmentsText (renderDocumentWithHighlights wContent [annA, annB]) =
      ("abcdefghij" ++ "fghijklmno" ++ "pqrst").toList ∧
    (segmentsText (renderDocumentWithHighlights wContent [annA, annB])).count 'f' = 2 ∧
    wContent.count 'f' = 1 ∧
    segmentsText (renderDocumentWithHighlights wContent [annA, annB]) ≠ wContent := by
  decide

/-- Claim C2: for every content string and every valid non-overlapping
annotation set (each range inside `[0, length content]`, sorted ranges
pairwise disjoint), concatenating the `text` of all segments returned by
the renderer reconstructs the content exactly. -/
theorem claim_c2_coverage (content : List Char) (anns : List Ann)
    (hvalid : anns.all (fun a => decide (0 ≤ a.position_start) &&
      decide (a.position_start ≤ a.position_end) &&
      decide (a.position_end ≤ (content.length : Int))) = true)
    (hdisj : List.Chain' (fun a b => a.position_end ≤ b.position_start) (sortAnns anns)) :
    segmentsText (renderDocumentWithHighlights content anns) = content := by
  apply render_concat content anns ?_ hdisj
  intro a ha
  have h := List.all_eq_true.mp hvalid a ha
  simp only [Bool.and_eq_true, decide_eq_true_eq] at h
  exact ⟨h.1.1, h.1.2, h.2⟩

/-- Witness for C2: a 20-character document with two disjoint valid
annotations renders back to the exact document text. -/
theorem claim_c2_coverage_witness :
    ([annC, annD].all (fun a => decide (0 ≤ a.position_start) &&
      decide (a.position_start ≤ a.position_end) &&
      decide (a.position_end ≤ (wContent.length : Int))) = true) ∧
    List.Chain' (fun a b => a.position_end ≤ b.position_start) (sortAnns [annC, annD]) ∧
    segmentsText (renderDocumentWithHighlights wContent [annC, annD]) = wContent := by
  have hchain : List.Chain' (fun a b => a.position_end ≤ b.position_start)
      (sortAnns [annC, annD]) := by
    rw [(by decide : sortAnns [annC, annD] = [annC, annD])]
    exact List.chain'_pair.mpr (by decide)
  exact ⟨by decide, hchain, claim_c2_coverage wContent [annC, annD] (by decide) hchain⟩

/-- Claim C6: rendering with an empty annotation list yields exactly one
plain segment carrying the whole content. -/
theorem claim_c6_no_annotations (content : List Char) :
    renderDocumentWithHighlights content [] =
      [{ text := content, highlighted := false, annot := none }] := rfl

/-- Claim C7: an empty (collapsed) or whitespace-only-after-trimming
selection makes the selection translator return nothing — a no-op result,
not an error. -/
theorem claim_c7_whitespace_noop (containerText : List Char) (selStart selEnd : Nat)
    (hws : jsTrim ((containerText.drop selStart).take (selEnd - selStart)) = []) :
    handleTextSelection containerText selStart selEnd = none := by
  unfold handleTextSelection
  simp [hws]

/-- Witness for C7: selecting a single form feed, a character of the
JavaScript trim class. -/
theorem claim_c7_whitespace_noop_witness :
    jsTrim (((['a', '\x0C', 'b'] : List Char).drop 1).take (2 - 1)) = [] ∧
      handleTextSelection ['a', '\x0C', 'b'] 1 2 = none :=
  ⟨by decide, claim_c7_whitespace_noop ['a', '\x0C', 'b'] 1 2 (by decide)⟩

/-- Claim C8 counterexample: `"constructor"` is not an enumerated color
name, yet the object-literal lookup finds the inherited truthy
`Object.prototype.constructor` via the prototype chain and returns it,
not the yellow default. -/
theorem claim_c8_color_counterexample :
    ("constructor" ∉ ["yellow", "green", "blue", "pink", "purple"]) ∧
    getHighlightColor "constructor" = JsVal.inherited "constructor" ∧
    getHighlightColor "constructor" ≠ JsVal.str "#fef08a" := by
  decide

/-- Claim C8 as amended: highlight color resolution is the fixed total
mapping yellow, green, blue, pink, purple to their hex values, and any
unknown or missing (falsy) color name deterministically resolves to the
yellow value — except names of members inherited from
`Object.prototype`, for which the lookup returns the truthy inherited
member instead of the default. -/
theorem claim_c8_color_mapping (c : String)
    (h : c ∉ ["yellow", "green", "blue", "pink", "purple"])
    (hproto : c ∉ objectProtoKeys) :
    getHighlightColor c = JsVal.str "#fef08a" ∧
    getHighlightColor "yellow" = JsVal.str "#fef08a" ∧
    getHighlightColor "green" = JsVal.str "#bbf7d0" ∧
    getHighlightColor "blue" = JsVal.str "#bfdbfe" ∧
    getHighlightColor "pink" = JsVal.str "#fbcfe8" ∧
    getHighlightColor "purple" = JsVal.str "#e9d5ff" ∧
    resolveColor none = JsVal.str "#fef08a" ∧
    resolveColor (some "") = JsVal.str "#fef08a" := by
  simp only [List.mem_cons, List.not_mem_nil, or_false, not_or] at h
  obtain ⟨h1, h2, h3, h4, h5⟩ := h
  refine ⟨?_, by decide, by decide, by decide, by decide, by decide, by decide, by decide⟩
  unfold getHighlightColor
  rw [if_neg h1, if_neg h2, if_neg h3, if_neg h4, if_neg h5, if_neg hproto]

/-- Witness for the amended C8: the unknown color name `"gray"` — outside
the table and not an inherited `Object.prototype` member — resolves to
the yellow value. -/
theorem claim_c8_color_mapping_witness :
    ("gray" ∉ ["yellow", "green", "blue", "pink", "purple"]) ∧
      ("gray" ∉ objectProtoKeys) ∧
      getHighlightColor "gray" = JsVal.str "#fef08a" :=
  ⟨by decide, by decide, (claim_c8_color_mapping "gray" (by decide) (by decide)).1⟩

/-- Every segment the render loop emits is a `substring` slice, hence no
longer than the content. -/
theorem renderLoop_text_le (content : List Char) (l : List Ann) :
    ∀ (li : Int) (seg : Segment), seg ∈ renderLoop content l li →
      seg.text.length ≤ content.length := by
  induction l with
  | nil =>
    intro li seg h
    unfold renderLoop at h
    split at h
    · have hseg : seg = ⟨jsSubstring content li content.length, false, none⟩ := by
        simpa using h
      rw [hseg]
      exact jsSubstring_length_le content li content.length
    · simp at h
  | cons a l ih =>
    intro li seg h
    unfold renderLoop at h
    split at h
    · simp only [List.mem_append, List.mem_cons, List.not_mem_nil, or_false,
        List.mem_singleton] at h
      rcases h with h | h | h
      · rw [h]; exact jsSubstring_length_le content li a.position_start
      · rw [h]; exact jsSubstring_length_le content a.position_start a.position_end
      · exact ih a.position_end seg h
    · simp only [List.nil_append, List.mem_cons] at h
      rcases h with h | h
      · rw [h]; exact jsSubstring_length_le content a.position_start a.position_end
      · exact ih a.position_end seg h

/-- Claim C5: the renderer clamps out-of-range annotation offsets
(`position_end` past the content length, negative `position_start`) to
valid bounds and never throws — every emitted segment, highlighted or
plain, has text no longer than the content. -/
theorem claim_c5_clamp (content : List Char) (anns : List Ann) (seg : Segment)
    (h : seg ∈ renderDocumentWithHighlights content anns) :
    seg.text.length ≤ content.length := by
  unfold renderDocumentWithHighlights at h
  split at h
  · have hseg : seg = ⟨content, false, none⟩ := by
      simpa using h
    rw [hseg]
  · exact renderLoop_text_le content (sortAnns anns) 0 seg h

/-- Witness for C5: the annotation with `position_end = 10000` on the
20-character document renders one highlighted segment of length 20. -/
theorem claim_c5_clamp_witness :
    (({ text := wContent, highlighted := true, annot := some annBig } : Segment) ∈
        renderDocumentWithHighlights wContent [annBig]) ∧
      ({ text := wContent, highlighted := true, annot := some annBig } : Segment).text.length ≤
        wContent.length :=
  ⟨by decide, claim_c5_clamp wContent [annBig] _ (by decide)⟩

/-- The highlighted segments of the render loop are exactly one per
annotation, in list order. -/
theorem renderLoop_highlights (content : List Char) (l : List Ann) :
    ∀ li : Int, ((renderLoop content l li).filter (fun s => s.highlighted)).map
      Segment.annot = l.map some := by
  induction l with
  | nil =>
    intro li
    unfold renderLoop
    split <;> simp [List.filter_cons]
  | cons a l ih =>
    intro li
    unfold renderLoop
    rw [List.filter_append]
    split <;> simp [List.filter_cons, ih]

/-- Claim C10: for a non-empty annotation list the renderer emits exactly
one highlighted segment per annotation — one-to-one, in sorted order —
including zero-length ranges and ranges nested inside already-emitted
ones, whose empty highlighted segments are still emitted. -/
theorem claim_c10_one_highlight_per_ann (content : List Char) (anns : List Ann)
    (h : anns ≠ []) :
    ((renderDocumentWithHighlights content anns).filter (fun s => s.highlighted)).map
        Segment.annot = (sortAnns anns).map some := by
  unfold renderDocumentWithHighlights
  rw [if_neg (by simpa using h)]
  exact renderLoop_highlights content (sortAnns anns) 0

/-- Witness for C10: an annotation enclosing a zero-length annotation
still yields exactly two highlighted segments, the second one empty. -/
theorem claim_c10_one_highlight_per_ann_witness :
    ([annE, annF] ≠ ([] : List Ann)) ∧
      ((renderDocumentWithHighlights wContent [annE, annF]).filter
          (fun s => s.highlighted)).map Segment.annot = (sortAnns [annE, annF]).map some :=
  ⟨by decide, claim_c10_one_highlight_per_ann wContent [annE, annF] (by decide)⟩

/-- Claim C9: the renderer sorts annotations ascending by
`position_start`; annotations with equal `position_start` are kept in
source order (the sort is a stable permutation: filtering any fixed start
value out of the sorted list returns those annotations in their original
order), so rendering is a deterministic function of the content and the
input annotation list. -/
theorem claim_c9_stable_sort (content : List Char) (a : Ann) (rest anns : List Ann)
    (k : Int) :
    renderDocumentWithHighlights content (a :: rest) =
        renderLoop content (sortAnns (a :: rest)) 0 ∧
      (sortAnns anns).Pairwise (fun x y => x.position_start ≤ y.position_start) ∧
      (sortAnns anns).Perm anns ∧
      (sortAnns anns).filter (fun x => decide (x.position_start = k)) =
        anns.filter (fun x => decide (x.position_start = k)) := by
  refine ⟨?_, sortAnns_sorted anns, sortAnns_perm anns, sortAnns_filter_eq k anns⟩
  unfold renderDocumentWithHighlights
  rw [if_neg (by simp)]

/-- Claim C3 counterexample: the claim quantifies over every offset pair,
but selecting the single space of the one-space document is translated to
nothing (the whitespace guard fires), not to the pair 0, 1. -/
theorem claim_c3_counterexample :
    handleTextSelection (segmentsText (renderDocumentWithHighlights [' '] [])) 0 1 = none ∧
      handleTextSelection (segmentsText (renderDocumentWithHighlights [' '] [])) 0 1 ≠
        some { text := [' '], start := 0, endPos := 1 } := by
  decide

/-- Claim C3 as amended: for a valid pairwise-disjoint annotation set,
rendering and then selecting `content[start, stop)` in the rendered text
stream translates back to exactly the pair start, stop — also across
highlight segment boundaries — provided the selected slice is not
whitespace-only after trimming (otherwise the translator returns nothing,
per C7). -/
theorem claim_c3_roundtrip (content : List Char) (anns : List Ann)
    (hvalid : anns.all (fun a => decide (0 ≤ a.position_start) &&
      decide (a.position_start ≤ a.position_end) &&
      decide (a.position_end ≤ (content.length : Int))) = true)
    (hdisj : List.Chain' (fun a b => a.position_end ≤ b.position_start) (sortAnns anns))
    (start stop : Nat) (h1 : start < stop) (h2 : stop ≤ content.length)
    (hws : jsTrim ((content.drop start).take (stop - start)) ≠ []) :
    handleTextSelection (segmentsText (renderDocumentWithHighlights content anns))
        start stop =
      some { text := (content.drop start).take (stop - start), start := start,
             endPos := stop } := by
  have hconcat : segmentsText (renderDocumentWithHighlights content anns) = content := by
    apply render_concat content anns ?_ hdisj
    intro a ha
    have h := List.all_eq_true.mp hvalid a ha
    simp only [Bool.and_eq_true, decide_eq_true_eq] at h
    exact ⟨h.1.1, h.1.2, h.2⟩
  rw [hconcat]
  unfold handleTextSelection
  rw [if_neg hws]
  have hlen : ((content.drop start).take (stop - start)).length = stop - start := by
    simp only [List.length_take, List.length_drop]
    omega
  rw [hlen]
  have : start + (stop - start) = stop := by omega
  rw [this]

/-- Witness for the amended C3: document "abcd" with highlight [1, 2);
selecting [1, 3) crosses the highlight boundary and still round-trips. -/
theorem claim_c3_roundtrip_witness :
    ([annG].all (fun a => decide (0 ≤ a.position_start) &&
      decide (a.position_start ≤ a.position_end) &&
      decide (a.position_end ≤ (("abcd".toList : List Char).length : Int))) = true) ∧
    List.Chain' (fun a b => a.position_end ≤ b.position_start) (sortAnns [annG]) ∧
    (1 : Nat) < 3 ∧ (3 : Nat) ≤ ("abcd".toList : List Char).length ∧
    jsTrim ((("abcd".toList : List Char).drop 1).take (3 - 1)) ≠ [] ∧
    handleTextSelection (segmentsText (renderDocumentWithHighlights "abcd".toList [annG]))
        1 3 =
      some { text := (("abcd".toList : List Char).drop 1).take (3 - 1), start := 1,
             endPos := 3 } := by
  have hchain : List.Chain' (fun a b => a.position_end ≤ b.position_start)
      (sortAnns [annG]) := by
    rw [(by decide : sortAnns [annG] = [annG])]
    exact List.chain'_singleton annG
  refine ⟨by decide, hchain, by decide, by decide, by decide, ?_⟩
  exact claim_c3_roundtrip "abcd".toList [annG] (by decide) hchain 1 3 (by decide)
    (by decide) (by decide)

/-- Index clamping never exceeds the length. -/
theorem clampIdx_le (len : Nat) (i : Int) : clampIdx len i ≤ len := min_le_right _ _

/-- Index clamping is monotone. -/
theorem clampIdx_mono (len : Nat) {a b : Int} (h : a ≤ b) :
    clampIdx len a ≤ clampIdx len b := by
  unfold clampIdx
  exact min_le_min (by omega) (le_refl len)

/-- A `substring` result is the slice of the content starting at the
effective lower bound, of its own length. -/
theorem jsSubstring_slice_at (content : List Char) (a b : Int) :
    jsSubstring content a b =
      (content.drop (clampLo content.length a b)).take ((jsSubstring content a b).length) := by
  unfold jsSubstring clampLo
  exact (take_take_len _ _).symm

/-- The position-annotated loop projects onto the plain render loop. -/
theorem renderLoopPos_snd (content : List Char) (l : List Ann) :
    ∀ li : Int, (renderLoopPos content l li).map Prod.snd = renderLoop content l li := by
  induction l with
  | nil =>
    intro li
    unfold renderLoopPos renderLoop
    split <;> simp
  | cons a l ih =>
    intro li
    unfold renderLoopPos renderLoop
    split <;> simp [ih]

/-- Each emitted pair's text is the content slice starting at the
recorded position. -/
theorem renderLoopPos_slice (content : List Char) (l : List Ann) :
    ∀ (li : Int) (p : Nat × Segment), p ∈ renderLoopPos content l li →
      p.2.text = (content.drop p.1).take p.2.text.length := by
  induction l with
  | nil =>
    intro li p hp
    unfold renderLoopPos at hp
    split at hp
    · have hp' : p = (clampIdx content.length li,
          ⟨jsSubstring content li content.length, false, none⟩) := by simpa using hp
      rw [hp']
      have hlo : clampIdx content.length li =
          clampLo content.length li (content.length : Int) := by
        unfold clampLo clampIdx
        simp only [Int.toNat_natCast, min_self]
        exact (min_eq_left (min_le_right _ _)).symm
      rw [hlo]
      exact jsSubstring_slice_at content li (content.length : Int)
    · simp at hp
  | cons a l ih =>
    intro li p hp
    unfold renderLoopPos at hp
    split at hp
    · rename_i hguard
      simp only [List.mem_append, List.mem_cons, List.not_mem_nil, or_false,
        List.mem_singleton] at hp
      rcases hp with hp | hp | hp
      · rw [hp]
        have hlo : clampIdx content.length li =
            clampLo content.length li a.position_start := by
          unfold clampLo
          exact (min_eq_left (clampIdx_mono _ (le_of_lt hguard))).symm
        rw [hlo]
        exact jsSubstring_slice_at content li a.position_start
      · rw [hp]
        exact jsSubstring_slice_at content a.position_start a.position_end
      · exact ih a.position_end p hp
    · simp only [List.nil_append, List.mem_cons] at hp
      rcases hp with hp | hp
      · rw [hp]
        exact jsSubstring_slice_at content a.position_start a.position_end
      · exact ih a.position_end p hp

/-- Recorded positions grow monotonically: with every annotation's start
not after its end and the list sorted by start, each emitted position is
at least the bound `lo` carried in from the previous segment. -/
theorem renderLoopPos_chain (content : List Char) (l : List Ann) :
    ∀ (li : Int) (lo : Nat), lo ≤ clampIdx content.length li →
      (∀ a ∈ l.head?, lo ≤ clampIdx content.length a.position_start) →
      l.Pairwise annLe →
      (∀ a ∈ l, a.position_start ≤ a.position_end) →
      List.Chain (fun m n : Nat => m ≤ n) lo
        ((renderLoopPos content l li).map Prod.fst) := by
  induction l with
  | nil =>
    intro li lo hlo _ _ _
    unfold renderLoopPos
    split
    · simp only [List.map_cons, List.map_nil]
      exact List.Chain.cons hlo List.Chain.nil
    · simp only [List.map_nil]
      exact List.Chain.nil
  | cons a l ih =>
    intro li lo hlo hhead hpair hse
    have hsea : a.position_start ≤ a.position_end := hse a (by simp)
    have hloa : lo ≤ clampIdx content.length a.position_start := hhead a rfl
    have hClo : clampLo content.length a.position_start a.position_end =
        clampIdx content.length a.position_start :=
      min_eq_left (clampIdx_mono _ hsea)
    have hrec : List.Chain (fun m n : Nat => m ≤ n)
        (clampIdx content.length a.position_start)
        ((renderLoopPos content l a.position_end).map Prod.fst) := by
      apply ih a.position_end (clampIdx content.length a.position_start)
        (clampIdx_mono _ hsea) ?_ hpair.of_cons (fun b hb => hse b (by simp [hb]))
      intro b hb
      have hmem : b ∈ l := List.mem_of_mem_head? hb
      exact clampIdx_mono _ ((List.pairwise_cons.mp hpair).1 b hmem)
    unfold renderLoopPos
    split
    · rename_i hguard
      simp only [List.map_append, List.map_cons, List.map_nil, List.singleton_append]
      refine List.Chain.cons hlo (List.Chain.cons ?_ ?_)
      · rw [hClo]
        exact clampIdx_mono _ (le_of_lt hguard)
      · rw [hClo]
        exact hrec
    · simp only [List.nil_append, List.map_cons]
      refine List.Chain.cons ?_ ?_
      · rw [hClo]
        exact hloa
      · rw [hClo]
        exact hrec

/-- Claim C4: for every content and annotation list — overlapping ones
included — the renderer emits its segments in non-decreasing order of
their starting position within the content: the position-annotated
rendering projects onto the renderer's output, its recorded positions are
non-decreasing, and every segment's text is the content slice starting at
its recorded position. Annotation ranges are assumed non-inverted
(`position_start ≤ position_end`), the data-model invariant. -/
theorem claim_c4_order (content : List Char) (anns : List Ann)
    (h : anns.all (fun a => decide (a.position_start ≤ a.position_end)) = true) :
    (renderWithPos content anns).map Prod.snd = renderDocumentWithHighlights content anns ∧
    List.Chain' (fun p q : Nat × Segment => p.1 ≤ q.1) (renderWithPos content anns) ∧
    (renderWithPos content anns).all
      (fun p => decide (p.2.text = (content.drop p.1).take p.2.text.length)) = true := by
  have hse : ∀ a ∈ sortAnns anns, a.position_start ≤ a.position_end := by
    intro a ha
    simpa using List.all_eq_true.mp h a (mem_sortAnns.mp ha)
  refine ⟨?_, ?_, ?_⟩
  · unfold renderWithPos renderDocumentWithHighlights
    split
    · simp
    · exact renderLoopPos_snd content (sortAnns anns) 0
  · unfold renderWithPos
    split
    · simp
    · have hchain : List.Chain' (fun m n : Nat => m ≤ n)
          ((0 : Nat) :: (renderLoopPos content (sortAnns anns) 0).map Prod.fst) :=
        renderLoopPos_chain content (sortAnns anns) 0 0 (Nat.zero_le _)
          (fun a _ => Nat.zero_le _) (sortAnns_sorted anns) hse
      exact (List.chain'_map Prod.fst).mp hchain.tail
  · rw [List.all_eq_true]
    intro p hp
    simp only [decide_eq_true_eq]
    revert hp
    unfold renderWithPos
    split
    · intro hp
      have hp' : p = (0, ⟨content, false, none⟩) := by simpa using hp
      rw [hp']
      simp
    · intro hp
      exact renderLoopPos_slice content (sortAnns anns) 0 p hp

/-- Witness for C4 at the overlapping pair [0, 10), [5, 15): positions
stay non-decreasing even though the output duplicates text. -/
theorem claim_c4_order_witness :
    ([annA, annB].all (fun a => decide (a.position_start ≤ a.position_end)) = true) ∧
      ((renderWithPos wContent [annA, annB]).map Prod.snd =
          renderDocumentWithHighlights wContent [annA, annB] ∧
        List.Chain' (fun p q : Nat × Segment => p.1 ≤ q.1)
          (renderWithPos wContent [annA, annB]) ∧
        (renderWithPos wContent [annA, annB]).all
          (fun p => decide (p.2.text = (wContent.drop p.1).take p.2.text.length)) = true) :=
  ⟨by decide, claim_c4_order wContent [annA, annB] (by decide)⟩
